import Mathlib

/-!
Shallow embedding of the Phase-Plane Explorer's numerical engine
(`src/PhasePlane.js`) over exact rationals.

JavaScript numbers are modelled as `ℚ`; a computation that can produce a
non-finite value (`NaN`/`±Infinity`) is modelled as `Option ℚ` with `none`
standing for any non-finite result, matching the `isFinite` guards in the
source.  User expressions and their Jacobians enter the engine only through
the callbacks `evalFG` / `jacobianAt`, so the embedded operations take those
evaluators as explicit function arguments.
-/

namespace PhasePlane

/-- Linear interpolation, `const lerp = (a, b, t) => a + (b - a) * t`. -/
def lerpQ (a b t : ℚ) : ℚ := a + (b - a) * t

/-- Clamp, `const clamp = (v, a, b) => Math.max(a, Math.min(b, v))`. -/
def clampQ (v a b : ℚ) : ℚ := max a (min b v)

/-- Domain rectangle `{xMin, xMax, yMin, yMax}`. -/
structure Domain where
  xMin : ℚ
  xMax : ℚ
  yMin : ℚ
  yMax : ℚ
deriving DecidableEq

/-- Validity invariant of a domain: `xMin < xMax` and `yMin < yMax`. -/
def Domain.valid (d : Domain) : Prop := d.xMin < d.xMax ∧ d.yMin < d.yMax

instance (d : Domain) : Decidable d.valid := by unfold Domain.valid; infer_instance

/-! ### Marching-squares crossing predicate (nullcline extractor)

Source (`drawNullcline`):
```
const crosses = (a, b) => {
  if (!isFinite(a) || !isFinite(b)) return false;
  if (Math.abs(a) < valEps && Math.abs(b) < valEps) return true;
  if (Math.abs(a) < valEps || Math.abs(b) < valEps) return true;
  return a * b < 0;
};
```
with `valEps = 1e-9`.  Corner values come from `evalFG` and may be
non-finite, hence the `Option ℚ` argument type; `none` is the non-finite
case of the first guard. -/

def valEps : ℚ := 1 / 10 ^ 9

/-- Crossing predicate on two adjacent corner values. -/
def crosses (a b : Option ℚ) : Bool :=
  match a, b with
  | some a, some b =>
    if |a| < valEps ∧ |b| < valEps then true
    else if |a| < valEps ∨ |b| < valEps then true
    else decide (a * b < 0)
  | _, _ => false

/-! ### Jacobian classifier

Source:
```
const classify = (tr, det, disc) => {
  if (!isFinite(tr) || !isFinite(det)) return "indeterminate";
  if (Math.abs(det) < 1e-10) return "degenerate";
  if (det < 0) return "saddle";
  if (disc < 0) return Math.abs(tr) < 1e-6 ? "center" : tr < 0 ? "spiral sink" : "spiral source";
  if (disc > 0) return tr < 0 ? "node sink" : "node source";
  return tr < 0 ? "degenerate sink" : "degenerate source";
};
const stability = cls.includes("sink") || cls === "center" ? (cls === "center" ? "neutral" : "stable") : cls === "saddle" ? "unstable" : tr > 0 ? "unstable" : "stable";
```
In the exact-rational model trace and determinant are always finite, so the
`"indeterminate"` guard is vacuous and is dropped. -/

/-- Topological classification of an equilibrium from trace, determinant and
discriminant of its Jacobian. -/
def classify (tr det disc : ℚ) : String :=
  if |det| < 1 / 10 ^ 10 then "degenerate"
  else if det < 0 then "saddle"
  else if disc < 0 then
    if |tr| < 1 / 10 ^ 6 then "center" else if tr < 0 then "spiral sink" else "spiral source"
  else if disc > 0 then
    if tr < 0 then "node sink" else "node source"
  else if tr < 0 then "degenerate sink" else "degenerate source"

/-- Model of JavaScript `needle`-in-`haystack` substring test: does the first
list occur contiguously in the second? -/
def startsWithSeq : List Char → List Char → Bool
  | [], _ => true
  | _ :: _, [] => false
  | p :: ps, c :: cs => p = c && startsWithSeq ps cs

/-- Contiguous-subsequence test, model of `String.prototype.includes`. -/
def containsSeq (pat : List Char) : List Char → Bool
  | [] => startsWithSeq pat []
  | c :: cs => startsWithSeq pat (c :: cs) || containsSeq pat cs

/-- Model of `cls.includes(pat)`. -/
def includesStr (cls pat : String) : Bool := containsSeq pat.toList cls.toList

/-- Stability label computed from the classification string and the trace,
translated from the `stability` expression in the source. -/
def stabilityOf (cls : String) (tr : ℚ) : String :=
  if includesStr cls "sink" || cls = "center" then
    if cls = "center" then "neutral" else "stable"
  else if cls = "saddle" then "unstable"
  else if tr > 0 then "unstable"
  else "stable"

/-- Modelled from the spec's classification rule (priority list, §4.5), with
the discriminant computed from trace and determinant; used to compare the
code's `classify` against the spec's wording. -/
def specClassify (tr det : ℚ) : String :=
  let disc := tr ^ 2 - 4 * det
  if |det| < 1 / 10 ^ 10 then "degenerate"
  else if det < 0 then "saddle"
  else if disc < 0 then
    if |tr| < 1 / 10 ^ 6 then "center" else if tr < 0 then "spiral sink" else "spiral source"
  else if disc > 0 then
    if tr < 0 then "node sink" else "node source"
  else if tr < 0 then "degenerate sink" else "degenerate source"

/-! ### Newton refinement of equilibrium candidates

Source:
```
const refinePoint = (x0, y0) => {
  let x = x0;
  let y = y0;
  for (let it = 0; it < 25; it++) {
    const [u, v] = evalFG(x, y);
    if (!isFinite(u) || !isFinite(v)) return null;
    const J = jacobianAt(x, y);
    const det = J[0][0] * J[1][1] - J[0][1] * J[1][0];
    if (!isFinite(det) || Math.abs(det) < 1e-12) return null;
    const dxn = (-u * J[1][1] + v * J[0][1]) / det;
    const dyn = (-v * J[0][0] + u * J[1][0]) / det;
    x += dxn;
    y += dyn;
    if (Math.hypot(dxn, dyn) < 1e-9) break;
  }
  const [uf, vf] = evalFG(x, y);
  if (!isFinite(uf) || !isFinite(vf) || Math.hypot(uf, vf) > 1e-5) return null;
  return [x, y];
};
```
The Jacobian is modelled as a total rational 2×2 matrix
`((J00, J01), (J10, J11))`: non-finite Jacobian entries are only observed in
the source through the `!isFinite(det)` guard, which is vacuous over `ℚ`.
`Math.hypot(a, b) ⋈ c` for `c ≥ 0` is rendered as `a^2 + b^2 ⋈ c^2`. -/

/-- Evaluator type for `(f, g)`: `none` models a non-finite evaluation. -/
abbrev FG := ℚ → ℚ → Option (ℚ × ℚ)

/-- Jacobian evaluator type: rows `((J00, J01), (J10, J11))`. -/
abbrev Jac := ℚ → ℚ → (ℚ × ℚ) × (ℚ × ℚ)

/-- Newton iteration loop of `refinePoint`; the fuel argument counts the
remaining iterations of `for (let it = 0; it < 25; it++)`. -/
def refineLoop (F : FG) (J : Jac) : ℕ → ℚ → ℚ → Option (ℚ × ℚ)
  | 0, x, y => some (x, y)
  | n + 1, x, y =>
    match F x y with
    | none => none
    | some (u, v) =>
      let m := J x y
      let det := m.1.1 * m.2.2 - m.1.2 * m.2.1
      if |det| < 1 / 10 ^ 12 then none
      else
        let dxn := (-u * m.2.2 + v * m.1.2) / det
        let dyn := (-v * m.1.1 + u * m.2.1) / det
        let x' := x + dxn
        let y' := y + dyn
        if dxn ^ 2 + dyn ^ 2 < (1 / 10 ^ 9 : ℚ) ^ 2 then some (x', y')
        else refineLoop F J n x' y'

/-- Newton refinement of one equilibrium candidate, translated from
`refinePoint`. -/
def refinePoint (F : FG) (J : Jac) (x0 y0 : ℚ) : Option (ℚ × ℚ) :=
  match refineLoop F J 25 x0 y0 with
  | none => none
  | some (x, y) =>
    match F x y with
    | none => none
    | some (uf, vf) =>
      if uf ^ 2 + vf ^ 2 > (1 / 10 ^ 5 : ℚ) ^ 2 then none else some (x, y)

/-- Modelled from the claim's wording of the refinement: on a singular
Jacobian (`|det J| < 1e-12`) the iteration stops early and the partial
result is KEPT; the refined point is then accepted iff the final residual
satisfies `‖F‖ < 1e-5` strictly.  Used to exhibit where the code diverges
from the claim. -/
def claimRefineLoop (F : FG) (J : Jac) : ℕ → ℚ → ℚ → Option (ℚ × ℚ)
  | 0, x, y => some (x, y)
  | n + 1, x, y =>
    match F x y with
    | none => none
    | some (u, v) =>
      let m := J x y
      let det := m.1.1 * m.2.2 - m.1.2 * m.2.1
      if |det| < 1 / 10 ^ 12 then some (x, y)
      else
        let dxn := (-u * m.2.2 + v * m.1.2) / det
        let dyn := (-v * m.1.1 + u * m.2.1) / det
        let x' := x + dxn
        let y' := y + dyn
        if dxn ^ 2 + dyn ^ 2 < (1 / 10 ^ 9 : ℚ) ^ 2 then some (x', y')
        else claimRefineLoop F J n x' y'

/-- Modelled from the claim's wording (see `claimRefineLoop`). -/
def claimRefinePoint (F : FG) (J : Jac) (x0 y0 : ℚ) : Option (ℚ × ℚ) :=
  match claimRefineLoop F J 25 x0 y0 with
  | none => none
  | some (x, y) =>
    match F x y with
    | none => none
    | some (uf, vf) =>
      if uf ^ 2 + vf ^ 2 < (1 / 10 ^ 5 : ℚ) ^ 2 then some (x, y) else none

/-- Accumulation of accepted refined points with 1e-4 deduplication,
translated from the `refinedPoints` loop:
```
const refinedPoints = [];
for (const pt of intersections) {
  const refined = refinePoint(pt[0], pt[1]);
  if (!refined) continue;
  if (!refinedPoints.some((q) => Math.hypot(q[0] - refined[0], q[1] - refined[1]) < 1e-4)) {
    refinedPoints.push(refined);
  }
}
``` -/
def refinedPointsList (F : FG) (J : Jac) (cands : List (ℚ × ℚ)) : List (ℚ × ℚ) :=
  cands.foldl
    (fun acc pt =>
      match refinePoint F J pt.1 pt.2 with
      | none => acc
      | some r =>
        if acc.any (fun q => (q.1 - r.1) ^ 2 + (q.2 - r.2) ^ 2 < (1 / 10 ^ 4 : ℚ) ^ 2) then acc
        else acc ++ [r])
    []

/-! ### Trajectory integration

Source:
```
function integrate(x0, y0, dir = +1, steps = 2000, hstep = 0.01) {
  let x = x0, y = y0;
  const pts = [];
  for (let k = 0; k < steps; k++) {
    const [u, v] = evalFG(x, y);
    if (!isFinite(u) || !isFinite(v)) break;
    const mx = x + 0.5 * dir * hstep * u;
    const my = y + 0.5 * dir * hstep * v;
    const [uu, vv] = evalFG(mx, my);
    x += dir * hstep * uu;
    y += dir * hstep * vv;
    if (x < xMin - 1 || x > xMax + 1 || y < yMin - 1 || y > yMax + 1) break;
    pts.push([x, y]);
  }
  return pts;
}
```
The source has no explicit finiteness check on the midpoint evaluation: a
non-finite `evalFG(mx, my)` poisons `x`, `y` with `NaN`, and the loop then
stops at the `isFinite` check of the next iteration (the single non-finite
placeholder point it records is not representable over `ℚ` and is dropped
by the embedding: termination happens at the same step). -/

/-- Escape test against the domain rectangle expanded by 1 on each side,
translated from `x < xMin - 1 || x > xMax + 1 || y < yMin - 1 || y > yMax + 1`. -/
def outsideExpanded (dom : Domain) (x y : ℚ) : Bool :=
  decide (x < dom.xMin - 1) || decide (x > dom.xMax + 1) ||
  decide (y < dom.yMin - 1) || decide (y > dom.yMax + 1)

/-- One midpoint (RK2) step of the integrator: evaluate at the point, take a
half-step Euler predictor, re-evaluate, and advance by the midpoint
derivative.  `none` when either evaluation is non-finite. -/
def rk2Step (F : FG) (dir h : ℚ) (p : ℚ × ℚ) : Option (ℚ × ℚ) :=
  match F p.1 p.2 with
  | none => none
  | some (u, v) =>
    match F (p.1 + 1 / 2 * dir * h * u) (p.2 + 1 / 2 * dir * h * v) with
    | none => none
    | some (uu, vv) => some (p.1 + dir * h * uu, p.2 + dir * h * vv)

/-- Integration loop of `integrate`; the fuel argument counts the remaining
steps of `for (let k = 0; k < steps; k++)`. -/
def integrateLoop (F : FG) (dom : Domain) (dir h : ℚ) : ℕ → ℚ → ℚ → List (ℚ × ℚ)
  | 0, _, _ => []
  | k + 1, x, y =>
    match F x y with
    | none => []
    | some (u, v) =>
      match F (x + 1 / 2 * dir * h * u) (y + 1 / 2 * dir * h * v) with
      | none => []
      | some (uu, vv) =>
        let x' := x + dir * h * uu
        let y' := y + dir * h * vv
        if outsideExpanded dom x' y' then []
        else (x', y') :: integrateLoop F dom dir h k x' y'

/-- Full trajectory path for one seed, translated from the per-seed block:
```
let pts = integrate(s[0], s[1], +1, 800, 0.01);
const ptsB = integrate(s[0], s[1], -1, 800, 0.01).reverse();
pts = ptsB.concat([[s[0], s[1]]], pts);
``` -/
def trajectoryPath (F : FG) (dom : Domain) (sx sy : ℚ) : List (ℚ × ℚ) :=
  (integrateLoop F dom (-1) (1 / 100) 800 sx sy).reverse ++
    (sx, sy) :: integrateLoop F dom 1 (1 / 100) 800 sx sy

/-! ### Vector field sampling

Source:
```
const N = gridN;
for (let i = 0; i < N; i++) {
  for (let j = 0; j < N; j++) {
    const x = lerp(xMin, xMax, i / (N - 1));
    const y = lerp(yMin, yMax, j / (N - 1));
    const [u, v] = evalFG(x, y);
    if (!isFinite(u) || !isFinite(v)) continue;
    ... emit the arrow for (x, y, u, v) ...
  }
}
``` -/

/-- One emitted vector-field sample. -/
structure FieldSample where
  x : ℚ
  y : ℚ
  u : ℚ
  v : ℚ
deriving DecidableEq

/-- Grid of N×N evaluation points in loop order. -/
def fieldGridPoints (dom : Domain) (N : ℕ) : List (ℚ × ℚ) :=
  (List.range N).flatMap fun (i : ℕ) =>
    (List.range N).map fun (j : ℕ) =>
      (lerpQ dom.xMin dom.xMax ((i : ℚ) / ((N : ℚ) - 1)),
       lerpQ dom.yMin dom.yMax ((j : ℚ) / ((N : ℚ) - 1)))

/-- Emitted samples: evaluations at the grid points with non-finite results
silently dropped. -/
def vectorFieldSamples (F : FG) (dom : Domain) (N : ℕ) : List FieldSample :=
  (fieldGridPoints dom N).filterMap fun p =>
    (F p.1 p.2).map fun w => ⟨p.1, p.2, w.1, w.2⟩

/-! ### Per-cell marching-squares segment emission

Source (`drawNullcline` cell loop): crossing points are collected per edge
(edges 0 = bottom, 1 = right, 2 = top, 3 = left), deduplicated by
approximate equality (`Math.hypot(…) < 1e-6`), and connected; in the
4-distinct-points case the tie-break evaluates the target function at the
cell center and pairs the points in edge-index order.  The cell rectangle is
`x0 = xMin + i*dxCell`, `x1 = xMin + (i+1)*dxCell`, `y0 = yMin + j*dyCell`,
`y1 = yMin + (j+1)*dyCell`.  Corner values reaching `edgePoint` are finite,
since only crossing edges are interpolated and `crosses` is false on
non-finite values. -/

/-- Interpolation parameter for a crossing edge with corner values `v0`, `v1`,
from `edgePoint`: `clamp(Math.abs(denom) < valEps ? 0.5 : v0 / denom, 0, 1)`. -/
def edgeT (v0 v1 : ℚ) : ℚ :=
  let denom := v0 - v1
  clampQ (if |denom| < valEps then 1 / 2 else v0 / denom) 0 1

/-- Crossing point on edge `e` of the cell with corners
`c00 = values[i][j]`, `c10 = values[i+1][j]`, `c11 = values[i+1][j+1]`,
`c01 = values[i][j+1]`, translated from `edgePoint`. -/
def edgePointQ (x0 x1 y0 y1 c00 c10 c11 c01 : ℚ) : ℕ → ℚ × ℚ
  | 0 => (lerpQ x0 x1 (edgeT c00 c10), y0)
  | 1 => (x1, lerpQ y0 y1 (edgeT c10 c11))
  | 2 => (lerpQ x0 x1 (edgeT c01 c11), y1)
  | 3 => (x0, lerpQ y0 y1 (edgeT c00 c01))
  | _ => (x0, y0)

/-- Per-cell crossing-point list in edge order, translated from the four
`if (crosses(..)) pts.push({edge, point})` statements. -/
def cellPts (x0 x1 y0 y1 c00 c10 c11 c01 : ℚ) : List (ℕ × (ℚ × ℚ)) :=
  (if crosses (some c00) (some c10) then [(0, edgePointQ x0 x1 y0 y1 c00 c10 c11 c01 0)] else []) ++
  (if crosses (some c10) (some c11) then [(1, edgePointQ x0 x1 y0 y1 c00 c10 c11 c01 1)] else []) ++
  (if crosses (some c01) (some c11) then [(2, edgePointQ x0 x1 y0 y1 c00 c10 c11 c01 2)] else []) ++
  (if crosses (some c00) (some c01) then [(3, edgePointQ x0 x1 y0 y1 c00 c10 c11 c01 3)] else [])

/-- Approximate point equality, `Math.hypot(p0-q0, p1-q1) < 1e-6`. -/
def approxEqualQ (p q : ℚ × ℚ) : Bool :=
  decide ((p.1 - q.1) ^ 2 + (p.2 - q.2) ^ 2 < ((1 : ℚ) / 10 ^ 6) ^ 2)

/-- First-occurrence deduplication by approximate equality, translated from
the `uniquePts` accumulation. -/
def uniqueByApprox (pts : List (ℕ × (ℚ × ℚ))) : List (ℕ × (ℚ × ℚ)) :=
  pts.foldl
    (fun acc e => if acc.any (fun u => approxEqualQ u.2 e.2) then acc else acc ++ [e]) []

/-- JavaScript `centerVal > 0` where `centerVal` may be non-finite
(`NaN > 0` is `false`). -/
def jsGtZero : Option ℚ → Bool
  | some v => decide (v > 0)
  | none => false

/-- Rounded-coordinate key of a point, `Math.round(p * 1e6)` per coordinate
(JavaScript rounds half away from zero upward: `⌊v + 1/2⌋`). -/
def pointKeyQ (p : ℚ × ℚ) : ℤ × ℤ := (⌊p.1 * 10 ^ 6 + 1 / 2⌋, ⌊p.2 * 10 ^ 6 + 1 / 2⌋)

/-- Per-cell segment emission, translated from the `uniquePts.length`
case split of the cell loop (2-point, 3-point with hub detection, and the
ambiguous 4-point case with the center-value tie-break). -/
def cellSegments (x0 x1 y0 y1 c00 c10 c11 c01 : ℚ) (centerVal : Option ℚ) :
    List ((ℚ × ℚ) × (ℚ × ℚ)) :=
  let pts := cellPts x0 x1 y0 y1 c00 c10 c11 c01
  let uniq := uniqueByApprox pts
  if uniq.length = 2 then
    [(uniq.getD 0 (0, (0, 0)) |>.2, uniq.getD 1 (0, (0, 0)) |>.2)]
  else if uniq.length = 3 then
    let keyed := pts.map fun e => pointKeyQ e.2
    match uniq.find? (fun u => keyed.count (pointKeyQ u.2) > 1) with
    | some hub => (uniq.filter (fun u => u ≠ hub)).map fun u => (hub.2, u.2)
    | none =>
      let ordered := uniq.insertionSort fun a b => a.1 ≤ b.1
      (ordered.zip ordered.tail).map fun pq => (pq.1.2, pq.2.2)
  else if uniq.length = 4 then
    let ordered := uniq.insertionSort fun a b => a.1 ≤ b.1
    let g := fun k => (ordered.getD k (0, (0, 0))).2
    if jsGtZero centerVal then [(g 0, g 1), (g 2, g 3)]
    else [(g 0, g 3), (g 1, g 2)]
  else []

/-- Cell-level wrapper that also computes the center value the way the source
does: `evalFG` at the cell center, selecting the `f` or `g` component. -/
def cellSegmentsAt (F : FG) (whichF : Bool) (xMin yMin dxCell dyCell : ℚ) (i j : ℕ)
    (c00 c10 c11 c01 : ℚ) : List ((ℚ × ℚ) × (ℚ × ℚ)) :=
  let x0 := xMin + (i : ℚ) * dxCell
  let x1 := xMin + ((i : ℚ) + 1) * dxCell
  let y0 := yMin + (j : ℚ) * dyCell
  let y1 := yMin + ((j : ℚ) + 1) * dyCell
  let xc := xMin + ((i : ℚ) + 1 / 2) * dxCell
  let yc := yMin + ((j : ℚ) + 1 / 2) * dyCell
  let centerVal := (F xc yc).map fun w => if whichF then w.1 else w.2
  cellSegments x0 x1 y0 y1 c00 c10 c11 c01 centerVal

/-! ### Expression compiler: parameter discovery

Source:
```
const RESERVED = new Set(["x", "y", "t", "e", "pi"]);
const toAscii = (s) => s.replace(/μ/g, "mu");
function symbolNames(node) {
  const out = new Set();
  node.traverse((n) => {
    if (n.isSymbolNode && !RESERVED.has(n.name)) out.add(n.name);
  });
  return Array.from(out);
}
...
const nodeX = math.parse(toAscii(exprX));
const nodeY = math.parse(toAscii(exprY));
const syms = [...new Set([...symbolNames(nodeX), ...symbolNames(nodeY)])];
const sortedSyms = [...syms].sort();
```
`math.parse` is an external library call; it is taken as an abstract
function from rewritten text to a parse tree.  A parse tree is modelled by
its shape as observed by `traverse`: symbol nodes carrying a name, and
inner nodes carrying children, visited depth-first. -/

/-- Reserved symbol names. -/
def RESERVED : List String := ["x", "y", "t", "e", "pi"]

/-- Greek-mu normalisation `s.replace(/μ/g, "mu")` on the character
list of the text. -/
def toAscii : List Char → List Char
  | [] => []
  | c :: rest => (if c = 'μ' then ['m', 'u'] else [c]) ++ toAscii rest

/-- Abstract mathjs parse tree, as observed by `node.traverse`. -/
inductive MNode where
  | sym (name : String)
  | node (kind : String) (args : List MNode)

mutual

/-- All symbol names of a parse tree in traversal order (no filtering). -/
def allSymbols : MNode → List String
  | MNode.sym n => [n]
  | MNode.node _ args => allSymbolsList args

/-- List version of `allSymbols`. -/
def allSymbolsList : List MNode → List String
  | [] => []
  | a :: as => allSymbols a ++ allSymbolsList as

end

/-- First-occurrence deduplication (model of collecting into a JavaScript
`Set` and converting back with `Array.from`). -/
def dedupFirst (l : List String) : List String :=
  l.foldl (fun acc s => if s ∈ acc then acc else acc ++ [s]) []

/-- Translation of `symbolNames`: traverse, keep non-reserved symbol names,
first occurrence only. -/
def symbolNames (n : MNode) : List String :=
  dedupFirst ((allSymbols n).filter fun s => decide (s ∉ RESERVED))

/-- JavaScript default `Array.prototype.sort` comparator on strings:
lexicographic by code unit. -/
def lexLeChars : List Char → List Char → Bool
  | [], _ => true
  | _ :: _, [] => false
  | a :: as, b :: bs => if a < b then true else if b < a then false else lexLeChars as bs

/-- String comparison used by the JS sort. -/
def strLe (a b : String) : Prop := lexLeChars a.toList b.toList = true

instance : DecidableRel strLe := fun a b => by unfold strLe; infer_instance

/-- Required-parameter list of a pair of expression texts: rewrite `μ`,
parse, collect symbols, deduplicate, sort.  Translation of the
`sortedSyms` pipeline with `parse` abstract. -/
def requiredParamsOf (parse : List Char → MNode) (ex ey : List Char) : List String :=
  let nodeX := parse (toAscii ex)
  let nodeY := parse (toAscii ey)
  (dedupFirst (symbolNames nodeX ++ symbolNames nodeY)).insertionSort strLe

/-! ### Domain updates

Source (`commitDomainValue`, after reading the raw text of one field):
```
if (typeof raw !== "string" || raw.trim() === "") { ...reset input... }
const parsed = Number(raw);
if (!Number.isFinite(parsed)) { ...reset input... }
const next = { ...domain, [key]: parsed };
if (next.xMin >= next.xMax || next.yMin >= next.yMax) {
  error("Bounds must satisfy xMin < xMax and yMin < yMax");
  return ...unchanged...;
}
setDomain(next);
```
and the console command:
```
if (cmd === "bounds" && rest.length === 4) {
  const [a, b, c, d] = rest.map(Number);
  if (![a, b, c, d].every(Number.isFinite) || a >= b || c >= d) {
    line("bad bounds");
    return;
  }
  setDomain({ xMin: a, xMax: b, yMin: c, yMax: d });
}
```
A raw field value is modelled as `Option ℚ`: `none` when the text is empty
or `Number(raw)` is non-finite. -/

/-- The four domain fields. -/
inductive DKey where
  | kxMin | kxMax | kyMin | kyMax
deriving DecidableEq

/-- Functional update of one domain field, `{ ...domain, [key]: parsed }`. -/
def setKey (d : Domain) : DKey → ℚ → Domain
  | DKey.kxMin, v => { d with xMin := v }
  | DKey.kxMax, v => { d with xMax := v }
  | DKey.kyMin, v => { d with yMin := v }
  | DKey.kyMax, v => { d with yMax := v }

/-- Committing one toolbar bound; returns the new domain and the emitted
error message, if any. -/
def commitDomainValue (d : Domain) (key : DKey) (raw : Option ℚ) : Domain × Option String :=
  match raw with
  | none => (d, none)
  | some parsed =>
    let next := setKey d key parsed
    if next.xMin ≥ next.xMax ∨ next.yMin ≥ next.yMax then
      (d, some "Bounds must satisfy xMin < xMax and yMin < yMax")
    else (next, none)

/-- The console `bounds` command; arguments are the four parsed numbers
(`none` for a non-finite parse), result is the new domain and the emitted
console line, if any. -/
def boundsCommand (d : Domain) (a b c d' : Option ℚ) : Domain × Option String :=
  match a, b, c, d' with
  | some a, some b, some c, some d' =>
    if a ≥ b ∨ c ≥ d' then (d, some "bad bounds")
    else (⟨a, b, c, d'⟩, none)
  | _, _, _, _ => (d, some "bad bounds")

/-! ### Compute-request scheduling

Source (`postCompute` and the tail of `worker.onmessage`):
```
const postCompute = (payload) => {
  const worker = workerRef.current;
  if (!worker) return;
  if (inflightRef.current) {
    queuedPayloadRef.current = payload;
    return;
  }
  const requestId = requestIdRef.current + 1;
  requestIdRef.current = requestId;
  inflightRef.current = true;
  worker.postMessage({ type: "compute", requestId, payload });
};
...
inflightRef.current = false;
const queued = queuedPayloadRef.current;
if (queued) {
  queuedPayloadRef.current = null;
  const nextId = requestIdRef.current + 1;
  requestIdRef.current = nextId;
  inflightRef.current = true;
  worker.postMessage({ type: "compute", requestId: nextId, payload: queued });
}
``` -/

/-- Scheduler state: the three refs of the component. -/
structure SchedState (P : Type) where
  inflight : Bool
  queued : Option P
  reqId : ℕ

/-- Initial scheduler state. -/
def schedInit (P : Type) : SchedState P := ⟨false, none, 0⟩

/-- Scheduler events: a call to `postCompute`, or arrival of a worker
result (the tail of `worker.onmessage`). -/
inductive SchedEvent (P : Type) where
  | post (payload : P)
  | complete

/-- One scheduler transition; returns the new state and the list of
messages posted to the worker by this event. -/
def schedStep {P : Type} (s : SchedState P) : SchedEvent P → SchedState P × List (ℕ × P)
  | SchedEvent.post p =>
    if s.inflight then ({ s with queued := some p }, [])
    else ({ inflight := true, queued := s.queued, reqId := s.reqId + 1 }, [(s.reqId + 1, p)])
  | SchedEvent.complete =>
    match s.queued with
    | some q => ({ inflight := true, queued := none, reqId := s.reqId + 1 }, [(s.reqId + 1, q)])
    | none => ({ s with inflight := false }, [])

/-- Run a sequence of events from a state, accumulating posted messages. -/
def schedRun {P : Type} (s : SchedState P) : List (SchedEvent P) → SchedState P × List (ℕ × P)
  | [] => (s, [])
  | e :: es =>
    ((schedRun (schedStep s e).1 es).1,
      (schedStep s e).2 ++ (schedRun (schedStep s e).1 es).2)

/-- Scheduler invariant: a payload sits in the queued slot only while a
request is in flight. -/
def schedInv {P : Type} (s : SchedState P) : Prop :=
  s.queued.isSome = true → s.inflight = true

/-! ### Console log list

Source (`useLogs`):
```
const push = (type, text) =>
  setLogs((entries) => {
    const last = entries[entries.length - 1];
    if (last && last.type === type && last.text === text) return entries;
    return [...entries.slice(-400), { type, text, ts: Date.now() }];
  });
```
`entries.slice(-400)` keeps the 400 most recent entries (all of them when
fewer), i.e. `l.drop (l.length - 400)`. -/

/-- One console log entry. -/
structure LogEntry where
  type : String
  text : String
  ts : ℕ
deriving DecidableEq

/-- Translation of the `push` updater. -/
def pushLog (entries : List LogEntry) (ty tx : String) (ts : ℕ) : List LogEntry :=
  match entries.getLast? with
  | some last =>
    if last.type = ty ∧ last.text = tx then entries
    else entries.drop (entries.length - 400) ++ [⟨ty, tx, ts⟩]
  | none => entries.drop (entries.length - 400) ++ [⟨ty, tx, ts⟩]

/-! ## Theorems -/

/-- C5: the marching-squares crossing predicate holds if and only if either
adjacent corner value is within 1e-9 of zero or the two values have strictly
opposite signs; in particular an edge whose two corner values are both
within 1e-9 of zero counts as a crossing. -/
theorem c5_crosses_characterization (a b : ℚ) :
    (crosses (some a) (some b) = true ↔ |a| < valEps ∨ |b| < valEps ∨ a * b < 0) ∧
    (|a| < valEps → |b| < valEps → crosses (some a) (some b) = true) := by
  constructor
  · simp only [crosses]
    split_ifs with h1 h2
    · simp [h1.1]
    · simp only [true_iff]
      tauto
    · push_neg at h2
      simp [not_lt.mpr h2.1, not_lt.mpr h2.2]
  · intro ha hb
    simp only [crosses]
    simp [ha, hb]

/-- C5 witness: a doubly-near-zero edge crosses. -/
theorem c5_crosses_characterization_witness : crosses (some 0) (some 0) = true :=
  (c5_crosses_characterization 0 0).2 (by norm_num [valEps]) (by norm_num [valEps])

/-- C10: pushing an entry equal in type and text to the current last entry
leaves the console log list unchanged; pushing any other entry appends it
while retaining at most the 400 most recent prior entries, so a list of
length at most 401 stays at length at most 401 and the last element after a
non-duplicate push is the pushed entry. -/
theorem c10_useLogs_push (entries : List LogEntry) (ty tx : String) (ts : ℕ) :
    (∀ last, entries.getLast? = some last → last.type = ty → last.text = tx →
        pushLog entries ty tx ts = entries) ∧
    ((∀ last, entries.getLast? = some last → ¬(last.type = ty ∧ last.text = tx)) →
        pushLog entries ty tx ts =
          entries.drop (entries.length - 400) ++ [⟨ty, tx, ts⟩] ∧
        (pushLog entries ty tx ts).length = min entries.length 400 + 1 ∧
        (pushLog entries ty tx ts).getLast? = some ⟨ty, tx, ts⟩) ∧
    (entries.length ≤ 401 → (pushLog entries ty tx ts).length ≤ 401) := by
  have happend : (entries.drop (entries.length - 400) ++ [(⟨ty, tx, ts⟩ : LogEntry)]).length =
      min entries.length 400 + 1 := by
    simp only [List.length_append, List.length_drop, List.length_singleton]
    omega
  have hlast400 : (entries.drop (entries.length - 400) ++
      [(⟨ty, tx, ts⟩ : LogEntry)]).getLast? = some ⟨ty, tx, ts⟩ := by
    simp
  refine ⟨?_, ?_, ?_⟩
  · intro last hlast hty htx
    simp only [pushLog, hlast]
    rw [if_pos ⟨hty, htx⟩]
  · intro hnot
    cases hlast : entries.getLast? with
    | none => exact ⟨by simp only [pushLog, hlast], by simp only [pushLog, hlast]; exact happend,
        by simp only [pushLog, hlast]; exact hlast400⟩
    | some last =>
      have hne := hnot last hlast
      refine ⟨?_, ?_, ?_⟩ <;> simp only [pushLog, hlast, if_neg hne]
      · exact happend
      · exact hlast400
  · intro hlen
    cases hlast : entries.getLast? with
    | none =>
      simp only [pushLog, hlast, List.length_append, List.length_drop, List.length_singleton]
      omega
    | some last =>
      simp only [pushLog, hlast]
      split_ifs with h
      · exact hlen
      · simp only [List.length_append, List.length_drop, List.length_singleton]; omega

/-- C10 witness: a duplicate push on a one-entry list is suppressed, and a
fresh push appends. -/
theorem c10_useLogs_push_witness :
    pushLog [⟨"text", "hi", 0⟩] "text" "hi" 1 = [⟨"text", "hi", 0⟩] ∧
    (pushLog [] "text" "hi" 1).length ≤ 401 := by
  refine ⟨?_, ?_⟩
  · exact (c10_useLogs_push [⟨"text", "hi", 0⟩] "text" "hi" 1).1 ⟨"text", "hi", 0⟩ (by simp)
      rfl rfl
  · exact (c10_useLogs_push [] "text" "hi" 1).2.2 (by simp)

/-- C8: the stored domain always satisfies `xMin < xMax` and `yMin < yMax`:
a toolbar bound commit or console `bounds` command whose candidate domain
violates either inequality is rejected with a message and leaves the domain
unchanged, a valid candidate is installed verbatim (no clamping), and both
operations preserve the invariant. -/
theorem c8_domain_invariant (d : Domain) (hv : d.valid) (key : DKey) (raw : Option ℚ)
    (a b c d' : Option ℚ) :
    commitDomainValue d key none = (d, none) ∧
    (∀ v : ℚ, commitDomainValue d key (some v) =
        if (setKey d key v).valid then (setKey d key v, none)
        else (d, some "Bounds must satisfy xMin < xMax and yMin < yMax")) ∧
    (commitDomainValue d key raw).1.valid ∧
    (boundsCommand d a b c d').1.valid ∧
    (∀ va vb vc vd : ℚ, va ≥ vb ∨ vc ≥ vd →
        boundsCommand d (some va) (some vb) (some vc) (some vd) = (d, some "bad bounds")) ∧
    (∀ va vb vc vd : ℚ, va < vb → vc < vd →
        boundsCommand d (some va) (some vb) (some vc) (some vd) = (⟨va, vb, vc, vd⟩, none)) := by
  have hcommit : ∀ v : ℚ, commitDomainValue d key (some v) =
      if (setKey d key v).valid then (setKey d key v, none)
      else (d, some "Bounds must satisfy xMin < xMax and yMin < yMax") := by
    intro v
    simp only [commitDomainValue]
    by_cases h : (setKey d key v).valid
    · obtain ⟨h1, h2⟩ := h
      rw [if_neg (not_or.mpr ⟨not_le.mpr h1, not_le.mpr h2⟩), if_pos ⟨h1, h2⟩]
    · have hor : (setKey d key v).xMin ≥ (setKey d key v).xMax ∨
          (setKey d key v).yMin ≥ (setKey d key v).yMax := by
        rcases not_and_or.mp h with h' | h'
        · exact Or.inl (not_lt.mp h')
        · exact Or.inr (not_lt.mp h')
      rw [if_pos hor, if_neg h]
  refine ⟨rfl, hcommit, ?_, ?_, ?_, ?_⟩
  · cases raw with
    | none => exact hv
    | some v =>
      rw [hcommit v]
      split_ifs with h
      · exact h
      · exact hv
  · cases a with
    | none => exact hv
    | some va =>
      cases b with
      | none => exact hv
      | some vb =>
        cases c with
        | none => exact hv
        | some vc =>
          cases d' with
          | none => exact hv
          | some vd =>
            simp only [boundsCommand]
            split_ifs with h
            · exact hv
            · push_neg at h
              exact ⟨h.1, h.2⟩
  · intro va vb vc vd h
    simp only [boundsCommand]
    rw [if_pos h]
  · intro va vb vc vd h1 h2
    simp only [boundsCommand]
    rw [if_neg (by push_neg; exact ⟨h1, h2⟩)]

/-- C8 witness: on the default domain, an invalid `xMin` commit is rejected
with a message, and a valid `bounds` command installs the exact values. -/
theorem c8_domain_invariant_witness :
    commitDomainValue ⟨-3, 3, -3, 3⟩ DKey.kxMin (some 5) =
      (⟨-3, 3, -3, 3⟩, some "Bounds must satisfy xMin < xMax and yMin < yMax") ∧
    boundsCommand ⟨-3, 3, -3, 3⟩ (some 0) (some 1) (some 0) (some 2) =
      (⟨0, 1, 0, 2⟩, none) := by
  have h := c8_domain_invariant ⟨-3, 3, -3, 3⟩ (by constructor <;> norm_num) DKey.kxMin none
    none none none none
  refine ⟨?_, h.2.2.2.2.2 0 1 0 2 (by norm_num) (by norm_num)⟩
  have h2 := h.2.1 5
  rw [if_neg (by unfold setKey Domain.valid; norm_num)] at h2
  exact h2

/-- C2: with disc = tr² − 4·det, the classifier returns exactly the first
matching case of the spec's priority list, and the stability label is
"stable" for sink-classified or tr<0 non-saddle (non-center) cases,
"unstable" for source-classified, saddle, or tr>0 (non-center) cases, and
"neutral" for center. -/
theorem c2_classifier (tr det : ℚ) :
    (classify tr det (tr ^ 2 - 4 * det) = specClassify tr det) ∧
    (includesStr (classify tr det (tr ^ 2 - 4 * det)) "sink" = true ∨
        (tr < 0 ∧ classify tr det (tr ^ 2 - 4 * det) ≠ "saddle" ∧
          classify tr det (tr ^ 2 - 4 * det) ≠ "center") →
      stabilityOf (classify tr det (tr ^ 2 - 4 * det)) tr = "stable") ∧
    (includesStr (classify tr det (tr ^ 2 - 4 * det)) "source" = true ∨
        classify tr det (tr ^ 2 - 4 * det) = "saddle" ∨
        (tr > 0 ∧ classify tr det (tr ^ 2 - 4 * det) ≠ "center") →
      stabilityOf (classify tr det (tr ^ 2 - 4 * det)) tr = "unstable") ∧
    (classify tr det (tr ^ 2 - 4 * det) = "center" →
      stabilityOf (classify tr det (tr ^ 2 - 4 * det)) tr = "neutral") := by
  refine ⟨rfl, ?_⟩
  simp only [classify]
  split_ifs with h1 h2 h3 h4 h5 h6 h7 h8
  · -- degenerate
    refine ⟨fun h => ?_, fun h => ?_, fun h => absurd h (by decide)⟩
    · rcases h with h | ⟨htr, _, _⟩
      · exact absurd h (by decide)
      · simp +decide [stabilityOf, not_lt.mpr htr.le]
    · rcases h with h | h | ⟨htr, _⟩
      · exact absurd h (by decide)
      · exact absurd h (by decide)
      · simp +decide [stabilityOf, htr]
  · -- saddle
    refine ⟨fun h => ?_, fun _ => ?_, fun h => absurd h (by decide)⟩
    · rcases h with h | ⟨_, hne, _⟩
      · exact absurd h (by decide)
      · exact absurd rfl hne
    · simp +decide [stabilityOf]
  · -- center
    refine ⟨fun h => ?_, fun h => ?_, fun _ => by simp +decide [stabilityOf]⟩
    · rcases h with h | ⟨_, _, hne⟩
      · exact absurd h (by decide)
      · exact absurd rfl hne
    · rcases h with h | h | ⟨_, hne⟩
      · exact absurd h (by decide)
      · exact absurd h (by decide)
      · exact absurd rfl hne
  · -- spiral sink (h5 : tr < 0)
    refine ⟨fun _ => by simp +decide [stabilityOf], fun h => ?_, fun h => absurd h (by decide)⟩
    rcases h with h | h | ⟨htr, _⟩
    · exact absurd h (by decide)
    · exact absurd h (by decide)
    · exact absurd (htr.trans h5) (lt_irrefl 0)
  · -- spiral source (¬ tr < 0, ¬ |tr| < 1e-6)
    have htr : 0 < tr := by
      have h0 : 0 ≤ tr := not_lt.mp h5
      have habs : (1 / 10 ^ 6 : ℚ) ≤ |tr| := not_lt.mp h4
      rw [abs_of_nonneg h0] at habs
      have : (0 : ℚ) < 1 / 10 ^ 6 := by norm_num
      linarith
    refine ⟨fun h => ?_, fun _ => by simp +decide [stabilityOf, htr], fun h => absurd h (by decide)⟩
    rcases h with h | ⟨htr', _, _⟩
    · exact absurd h (by decide)
    · exact absurd (htr.trans htr') (lt_irrefl 0)
  · -- node sink (h7 : tr < 0)
    refine ⟨fun _ => by simp +decide [stabilityOf], fun h => ?_, fun h => absurd h (by decide)⟩
    rcases h with h | h | ⟨htr, _⟩
    · exact absurd h (by decide)
    · exact absurd h (by decide)
    · exact absurd (htr.trans h7) (lt_irrefl 0)
  · -- node source (¬ tr < 0, disc > 0, ¬ det < 0, ¬ |det| < 1e-10)
    have hdet : (1 / 10 ^ 10 : ℚ) ≤ det := by
      have h0 : 0 ≤ det := not_lt.mp h2
      have habs : (1 / 10 ^ 10 : ℚ) ≤ |det| := not_lt.mp h1
      rwa [abs_of_nonneg h0] at habs
    have htr : 0 < tr := by
      have h0 : 0 ≤ tr := not_lt.mp h7
      nlinarith [h6, hdet]
    refine ⟨fun h => ?_, fun _ => by simp +decide [stabilityOf, htr], fun h => absurd h (by decide)⟩
    rcases h with h | ⟨htr', _, _⟩
    · exact absurd h (by decide)
    · exact absurd (htr.trans htr') (lt_irrefl 0)
  · -- degenerate sink (h8 : tr < 0)
    refine ⟨fun _ => by simp +decide [stabilityOf], fun h => ?_, fun h => absurd h (by decide)⟩
    rcases h with h | h | ⟨htr, _⟩
    · exact absurd h (by decide)
    · exact absurd h (by decide)
    · exact absurd (htr.trans h8) (lt_irrefl 0)
  · -- degenerate source (¬ tr < 0, disc = 0, ¬ det < 0, ¬ |det| < 1e-10)
    have hdet : (1 / 10 ^ 10 : ℚ) ≤ det := by
      have h0 : 0 ≤ det := not_lt.mp h2
      have habs : (1 / 10 ^ 10 : ℚ) ≤ |det| := not_lt.mp h1
      rwa [abs_of_nonneg h0] at habs
    have hdisc : tr ^ 2 - 4 * det = 0 := le_antisymm (not_lt.mp h6) (not_lt.mp h3)
    have htr : 0 < tr := by
      have h0 : 0 ≤ tr := not_lt.mp h8
      nlinarith [hdisc, hdet]
    refine ⟨fun h => ?_, fun _ => by simp +decide [stabilityOf, htr], fun h => absurd h (by decide)⟩
    rcases h with h | ⟨htr', _, _⟩
    · exact absurd h (by decide)
    · exact absurd (htr.trans htr') (lt_irrefl 0)

/-- C2 witness: a concrete saddle (tr = 0, det = −1) is classified "saddle"
with stability "unstable". -/
theorem c2_classifier_witness :
    stabilityOf (classify 0 (-1) ((0 : ℚ) ^ 2 - 4 * (-1))) 0 = "unstable" :=
  (c2_classifier 0 (-1)).2.2.1 (Or.inr (Or.inl (by
    simp only [classify]
    norm_num)))

/-- A filterMap has full length iff the function succeeds on every element. -/
theorem filterMap_full_length_iff {α β : Type} (f : α → Option β) (l : List α) :
    (l.filterMap f).length = l.length ↔ ∀ a ∈ l, (f a).isSome = true := by
  induction l with
  | nil => simp
  | cons a l ih =>
    cases h : f a with
    | none =>
      have hle := List.length_filterMap_le f l
      simp only [List.filterMap_cons, h, List.length_cons]
      constructor
      · intro heq; omega
      · intro hall
        have := hall a (List.mem_cons_self a l)
        simp [h] at this
    | some b =>
      simp only [List.filterMap_cons, h, List.length_cons, Nat.add_right_cancel_iff, ih]
      constructor
      · intro hall a' ha'
        rcases List.mem_cons.mp ha' with rfl | ha'
        · simp [h]
        · exact hall a' ha'
      · intro hall a' ha'
        exact hall a' (List.mem_cons_of_mem a ha')

/-- Interpolation with a parameter in [0, 1] stays inside the segment. -/
theorem lerpQ_bounds (a b t : ℚ) (hab : a ≤ b) (h0 : 0 ≤ t) (h1 : t ≤ 1) :
    a ≤ lerpQ a b t ∧ lerpQ a b t ≤ b := by
  unfold lerpQ
  constructor <;> nlinarith

/-- The sampling grid has exactly N×N points. -/
theorem fieldGridPoints_length (dom : Domain) (N : ℕ) :
    (fieldGridPoints dom N).length = N * N := by
  rw [fieldGridPoints, List.length_flatMap]
  simp [Function.comp_def, List.map_const', List.sum_replicate, smul_eq_mul]

/-- C4: for a valid domain and grid resolution N in [8, 200], the sampler
evaluates at exactly N×N grid points inclusive of both axis endpoints, every
emitted sample lies within the domain rectangle and records the evaluation
at its grid point, and the number of emitted samples is at most N×N with
equality exactly when no evaluation was non-finite. -/
theorem c4_vector_field_sampler (F : FG) (dom : Domain) (N : ℕ)
    (hN1 : 8 ≤ N) (hN2 : N ≤ 200) (hx : dom.xMin < dom.xMax) (hy : dom.yMin < dom.yMax) :
    (fieldGridPoints dom N).length = N * N ∧
    (dom.xMin, dom.yMin) ∈ fieldGridPoints dom N ∧
    (dom.xMax, dom.yMax) ∈ fieldGridPoints dom N ∧
    (∀ s ∈ vectorFieldSamples F dom N,
        (dom.xMin ≤ s.x ∧ s.x ≤ dom.xMax ∧ dom.yMin ≤ s.y ∧ s.y ≤ dom.yMax) ∧
        (s.x, s.y) ∈ fieldGridPoints dom N ∧ F s.x s.y = some (s.u, s.v)) ∧
    (vectorFieldSamples F dom N).length ≤ N * N ∧
    ((vectorFieldSamples F dom N).length = N * N ↔
      ∀ p ∈ fieldGridPoints dom N, (F p.1 p.2).isSome = true) := by
  have hNq : (8 : ℚ) ≤ (N : ℚ) := by exact_mod_cast hN1
  have hden : (0 : ℚ) < (N : ℚ) - 1 := by linarith
  have hmemgrid : ∀ p ∈ fieldGridPoints dom N,
      dom.xMin ≤ p.1 ∧ p.1 ≤ dom.xMax ∧ dom.yMin ≤ p.2 ∧ p.2 ≤ dom.yMax := by
    intro p hp
    rw [fieldGridPoints] at hp
    obtain ⟨i, hi, hp⟩ := List.mem_flatMap.mp hp
    obtain ⟨j, hj, hp⟩ := List.mem_map.mp hp
    rw [List.mem_range] at hi hj
    have hti : (0 : ℚ) ≤ (i : ℚ) / ((N : ℚ) - 1) ∧ (i : ℚ) / ((N : ℚ) - 1) ≤ 1 := by
      constructor
      · exact div_nonneg (by positivity) hden.le
      · rw [div_le_one hden]
        have : (i : ℚ) + 1 ≤ (N : ℚ) := by exact_mod_cast hi
        linarith
    have htj : (0 : ℚ) ≤ (j : ℚ) / ((N : ℚ) - 1) ∧ (j : ℚ) / ((N : ℚ) - 1) ≤ 1 := by
      constructor
      · exact div_nonneg (by positivity) hden.le
      · rw [div_le_one hden]
        have : (j : ℚ) + 1 ≤ (N : ℚ) := by exact_mod_cast hj
        linarith
    have hbx := lerpQ_bounds dom.xMin dom.xMax _ hx.le hti.1 hti.2
    have hby := lerpQ_bounds dom.yMin dom.yMax _ hy.le htj.1 htj.2
    rw [← hp]
    exact ⟨hbx.1, hbx.2, hby.1, hby.2⟩
  refine ⟨fieldGridPoints_length dom N, ?_, ?_, ?_, ?_, ?_⟩
  · rw [fieldGridPoints]
    have h0 : (0 : ℕ) ∈ List.range N := List.mem_range.mpr (by omega)
    refine List.mem_flatMap.mpr ⟨0, h0, List.mem_map.mpr ⟨0, h0, ?_⟩⟩
    simp [lerpQ]
  · rw [fieldGridPoints]
    have h0 : N - 1 ∈ List.range N := List.mem_range.mpr (by omega)
    refine List.mem_flatMap.mpr ⟨N - 1, h0, List.mem_map.mpr ⟨N - 1, h0, ?_⟩⟩
    have hcast : ((N - 1 : ℕ) : ℚ) = (N : ℚ) - 1 := by
      have h1 : 1 ≤ N := by omega
      push_cast [h1]
      ring
    rw [hcast, div_self hden.ne']
    simp only [lerpQ, Prod.mk.injEq]
    constructor <;> ring
  · intro s hs
    rw [vectorFieldSamples] at hs
    obtain ⟨p, hp, hf⟩ := List.mem_filterMap.mp hs
    obtain ⟨w, hw, hsw⟩ := Option.map_eq_some'.mp hf
    have hx' : s.x = p.1 := by rw [← hsw]
    have hy' : s.y = p.2 := by rw [← hsw]
    have hu' : s.u = w.1 := by rw [← hsw]
    have hv' : s.v = w.2 := by rw [← hsw]
    have hb := hmemgrid p hp
    rw [hx', hy', hu', hv']
    exact ⟨⟨hb.1, hb.2.1, hb.2.2.1, hb.2.2.2⟩, hp, by rw [hw]⟩
  · rw [vectorFieldSamples, ← fieldGridPoints_length dom N]
    exact List.length_filterMap_le _ _
  · rw [vectorFieldSamples, ← fieldGridPoints_length dom N]
    rw [filterMap_full_length_iff]
    constructor
    · intro h p hp
      have := h p hp
      simpa [Option.isSome_map] using this
    · intro h p hp
      simpa [Option.isSome_map] using h p hp

/-- C4 witness: on the default domain with N = 8 and a field that is finite
everywhere, the grid corners are sampled and the sample count is full. -/
theorem c4_vector_field_sampler_witness :
    ((8 : ℕ) ≤ 8) ∧
    (vectorFieldSamples (fun _ _ => some (1, 0)) ⟨-3, 3, -3, 3⟩ 8).length = 8 * 8 := by
  have h := c4_vector_field_sampler (fun _ _ => some (1, 0)) ⟨-3, 3, -3, 3⟩ 8
    (by norm_num) (by norm_num) (by norm_num) (by norm_num)
  exact ⟨le_refl 8, h.2.2.2.2.2.mpr (fun p _ => rfl)⟩

/-- One scheduler step preserves the queued-implies-inflight invariant. -/
theorem schedStep_inv {P : Type} (s : SchedState P) (e : SchedEvent P) (_hs : schedInv s) :
    schedInv (schedStep s e).1 := by
  cases e with
  | post p =>
    by_cases h : s.inflight = true
    · simp [schedStep, h, schedInv]
    · simp only [Bool.not_eq_true] at h
      simp [schedStep, h, schedInv]
  | complete =>
    cases hq : s.queued with
    | some q => simp [schedStep, hq, schedInv]
    | none => simp [schedStep, hq, schedInv]

/-- One scheduler step: identifiers never decrease, every posted message
carries identifier `reqId + 1` (which is also the new `reqId`), and at most
one message is posted. -/
theorem schedStep_ids {P : Type} (s : SchedState P) (e : SchedEvent P) :
    s.reqId ≤ (schedStep s e).1.reqId ∧
    (∀ m ∈ (schedStep s e).2, m.1 = s.reqId + 1 ∧ (schedStep s e).1.reqId = s.reqId + 1) ∧
    ((schedStep s e).2.map Prod.fst).Chain' (· < ·) := by
  cases e with
  | post p =>
    by_cases h : s.inflight = true
    · simp [schedStep, h]
    · simp only [Bool.not_eq_true] at h
      simp [schedStep, h]
  | complete =>
    cases hq : s.queued with
    | some q => simp [schedStep, hq]
    | none => simp [schedStep, hq]

/-- Along any run, identifiers of posted messages are strictly increasing
and strictly above the starting identifier. -/
theorem schedRun_ids {P : Type} :
    ∀ (evs : List (SchedEvent P)) (s : SchedState P),
      s.reqId ≤ (schedRun s evs).1.reqId ∧
      (∀ m ∈ (schedRun s evs).2, s.reqId < m.1 ∧ m.1 ≤ (schedRun s evs).1.reqId) ∧
      ((schedRun s evs).2.map Prod.fst).Chain' (· < ·)
  | [], s => by simp [schedRun]
  | e :: es, s => by
    obtain ⟨h1, h2, h3⟩ := schedStep_ids s e
    obtain ⟨ih1, ih2, ih3⟩ := schedRun_ids es (schedStep s e).1
    simp only [schedRun]
    refine ⟨h1.trans ih1, ?_, ?_⟩
    · intro m hm
      rcases List.mem_append.mp hm with hm | hm
      · obtain ⟨hid, hnew⟩ := h2 m hm
        exact ⟨by omega, by rw [hid, ← hnew]; exact ih1⟩
      · have := ih2 m hm
        exact ⟨lt_of_le_of_lt h1 this.1, this.2⟩
    · rw [List.map_append]
      refine List.chain'_append.mpr ⟨h3, ih3, ?_⟩
      intro x hx y hy
      have hx' : x ∈ (schedStep s e).2.map Prod.fst := List.mem_of_mem_getLast? hx
      have hy' : y ∈ (schedRun (schedStep s e).1 es).2.map Prod.fst := List.mem_of_mem_head? hy
      obtain ⟨mx, hmx, hmx'⟩ := List.mem_map.mp hx'
      obtain ⟨my, hmy, hmy'⟩ := List.mem_map.mp hy'
      obtain ⟨hid, hnew⟩ := h2 mx hmx
      have := (ih2 my hmy).1
      omega

/-- C9: at most one compute request is in flight.  From the initial state, a
payload can sit in the single queued slot only while a request is in flight;
posted request identifiers are strictly increasing along any event
sequence; a `postCompute` while in flight only overwrites the queued slot
and posts nothing; a `postCompute` while idle posts immediately with a
fresh identifier; and a completion dispatches the queued payload, if any,
immediately with the next identifier. -/
theorem c9_scheduler {P : Type} (evs : List (SchedEvent P)) (s : SchedState P) (p q : P) :
    ((schedRun (schedInit P) evs).1.queued.isSome = true →
      (schedRun (schedInit P) evs).1.inflight = true) ∧
    ((schedRun (schedInit P) evs).2.map Prod.fst).Chain' (· < ·) ∧
    (s.inflight = true →
      schedStep s (SchedEvent.post p) = ({ s with queued := some p }, [])) ∧
    (s.inflight = false →
      schedStep s (SchedEvent.post p) =
        (⟨true, s.queued, s.reqId + 1⟩, [(s.reqId + 1, p)])) ∧
    (s.queued = some q →
      schedStep s SchedEvent.complete = (⟨true, none, s.reqId + 1⟩, [(s.reqId + 1, q)])) ∧
    (s.queued = none →
      schedStep s SchedEvent.complete = ({ s with inflight := false }, [])) := by
  refine ⟨?_, (schedRun_ids evs (schedInit P)).2.2, ?_, ?_, ?_, ?_⟩
  · have : ∀ (l : List (SchedEvent P)) (t : SchedState P), schedInv t →
        schedInv (schedRun t l).1 := by
      intro l
      induction l with
      | nil => intro t ht; simpa [schedRun] using ht
      | cons e es ih =>
        intro t ht
        simp only [schedRun]
        exact ih _ (schedStep_inv t e ht)
    exact this evs (schedInit P) (by simp [schedInv, schedInit])
  · intro h; simp [schedStep, h]
  · intro h; simp [schedStep, h]
  · intro h; simp [schedStep, h]
  · intro h; simp [schedStep, h]

/-- C9 witness: with a request in flight, a new post only fills the queued
slot, and the completion dispatches it with the next identifier. -/
theorem c9_scheduler_witness :
    schedStep (⟨true, none, 5⟩ : SchedState ℕ) (SchedEvent.post 7) = (⟨true, some 7, 5⟩, []) ∧
    schedStep (⟨true, some 7, 5⟩ : SchedState ℕ) SchedEvent.complete =
      (⟨true, none, 6⟩, [(6, 7)]) := by
  refine ⟨?_, ?_⟩
  · exact (c9_scheduler [] (⟨true, none, 5⟩ : SchedState ℕ) 7 7).2.2.1 rfl
  · exact (c9_scheduler [] (⟨true, some 7, 5⟩ : SchedState ℕ) 7 7).2.2.2.2.1 rfl

/-- Structure of the integration loop: at most `n` points, every recorded
point inside the expanded rectangle, consecutive points linked by the RK2
step map, and early termination only on a non-finite evaluation or a
domain-exit step. -/
theorem integrateLoop_facts (F : FG) (dom : Domain) (dir h : ℚ) :
    ∀ (n : ℕ) (x y : ℚ),
      (integrateLoop F dom dir h n x y).length ≤ n ∧
      (∀ p ∈ integrateLoop F dom dir h n x y, outsideExpanded dom p.1 p.2 = false) ∧
      List.Chain (fun p q => rk2Step F dir h p = some q) (x, y)
        (integrateLoop F dom dir h n x y) ∧
      ((integrateLoop F dom dir h n x y).length < n →
        rk2Step F dir h ((integrateLoop F dom dir h n x y).getLastD (x, y)) = none ∨
        ∃ z, rk2Step F dir h ((integrateLoop F dom dir h n x y).getLastD (x, y)) = some z ∧
          outsideExpanded dom z.1 z.2 = true)
  | 0, x, y => by simp [integrateLoop]
  | n + 1, x, y => by
    cases hF : F x y with
    | none =>
      simp only [integrateLoop, hF]
      refine ⟨by simp, by simp, List.Chain.nil, fun _ => Or.inl ?_⟩
      simp only [List.getLastD_nil, rk2Step, hF]
    | some w =>
      obtain ⟨u, v⟩ := w
      cases hM : F (x + 1 / 2 * dir * h * u) (y + 1 / 2 * dir * h * v) with
      | none =>
        simp only [integrateLoop, hF, hM]
        refine ⟨by simp, by simp, List.Chain.nil, fun _ => Or.inl ?_⟩
        simp only [List.getLastD_nil, rk2Step, hF, hM]
      | some w' =>
        obtain ⟨uu, vv⟩ := w'
        have hstep : rk2Step F dir h (x, y) = some (x + dir * h * uu, y + dir * h * vv) := by
          simp only [rk2Step, hF, hM]
        by_cases hout : outsideExpanded dom (x + dir * h * uu) (y + dir * h * vv) = true
        · simp only [integrateLoop, hF, hM, hout, if_pos]
          exact ⟨by simp, by simp, List.Chain.nil,
            fun _ => Or.inr ⟨(x + dir * h * uu, y + dir * h * vv), hstep, hout⟩⟩
        · have hout' : outsideExpanded dom (x + dir * h * uu) (y + dir * h * vv) = false :=
            Bool.not_eq_true _ ▸ eq_false_of_ne_true hout
          obtain ⟨ih1, ih2, ih3, ih4⟩ :=
            integrateLoop_facts F dom dir h n (x + dir * h * uu) (y + dir * h * vv)
          simp only [integrateLoop, hF, hM, hout', Bool.false_eq_true, if_false]
          refine ⟨by simpa using ih1, ?_, ?_, ?_⟩
          · intro p hp
            rcases List.mem_cons.mp hp with rfl | hp
            · exact hout'
            · exact ih2 p hp
          · exact List.Chain.cons hstep ih3
          · intro hlen
            rw [List.getLastD_cons]
            exact ih4 (by simpa using hlen)

/-- C3: each direction of a seed's trajectory is integrated with the fixed
midpoint RK2 step h = 1/100 for at most 800 steps; a direction stops early
only when an evaluation is non-finite or the next point leaves the domain
expanded by 1 on each side (keeping the points accumulated so far, all of
which lie inside the expanded rectangle); and the full path is the backward
points reversed, then the seed, then the forward points. -/
theorem c3_trajectory_integration (F : FG) (dom : Domain) (sx sy dir : ℚ) :
    trajectoryPath F dom sx sy =
      (integrateLoop F dom (-1) (1 / 100) 800 sx sy).reverse ++
        (sx, sy) :: integrateLoop F dom 1 (1 / 100) 800 sx sy ∧
    (trajectoryPath F dom sx sy).length ≤ 1601 ∧
    (integrateLoop F dom dir (1 / 100) 800 sx sy).length ≤ 800 ∧
    (∀ p ∈ integrateLoop F dom dir (1 / 100) 800 sx sy,
        outsideExpanded dom p.1 p.2 = false) ∧
    List.Chain (fun p q => rk2Step F dir (1 / 100) p = some q) (sx, sy)
      (integrateLoop F dom dir (1 / 100) 800 sx sy) ∧
    ((integrateLoop F dom dir (1 / 100) 800 sx sy).length < 800 →
      rk2Step F dir (1 / 100)
          ((integrateLoop F dom dir (1 / 100) 800 sx sy).getLastD (sx, sy)) = none ∨
      ∃ z, rk2Step F dir (1 / 100)
          ((integrateLoop F dom dir (1 / 100) 800 sx sy).getLastD (sx, sy)) = some z ∧
        outsideExpanded dom z.1 z.2 = true) := by
  obtain ⟨h1, h2, h3, h4⟩ := integrateLoop_facts F dom dir (1 / 100) 800 sx sy
  have hb := (integrateLoop_facts F dom (-1) (1 / 100) 800 sx sy).1
  have hf := (integrateLoop_facts F dom 1 (1 / 100) 800 sx sy).1
  refine ⟨rfl, ?_, h1, h2, h3, h4⟩
  rw [trajectoryPath]
  simp only [List.length_append, List.length_reverse, List.length_cons]
  omega

/-- C3 witness: a field that is non-finite everywhere terminates the
forward direction immediately, keeping no points. -/
theorem c3_trajectory_integration_witness :
    (integrateLoop (fun _ _ => none) ⟨-3, 3, -3, 3⟩ 1 (1 / 100) 800 0 0).length < 800 ∧
    (rk2Step (fun _ _ => none) 1 (1 / 100)
        ((integrateLoop (fun _ _ => none) ⟨-3, 3, -3, 3⟩ 1 (1 / 100) 800 0 0).getLastD
          (0, 0)) = none ∨
      ∃ z, rk2Step (fun _ _ => none) 1 (1 / 100)
          ((integrateLoop (fun _ _ => none) ⟨-3, 3, -3, 3⟩ 1 (1 / 100) 800 0 0).getLastD
            (0, 0)) = some z ∧
        outsideExpanded ⟨-3, 3, -3, 3⟩ z.1 z.2 = true) := by
  have hempty : integrateLoop (fun _ _ => none) (⟨-3, 3, -3, 3⟩ : Domain) 1
      (1 / 100) 800 0 0 = [] := by
    rw [show (800 : ℕ) = 799 + 1 from rfl]
    simp only [integrateLoop]
  have hlen : (integrateLoop (fun _ _ => none) (⟨-3, 3, -3, 3⟩ : Domain) 1
      (1 / 100) 800 0 0).length < 800 := by rw [hempty]; norm_num
  exact ⟨hlen,
    (c3_trajectory_integration (fun _ _ => none) ⟨-3, 3, -3, 3⟩ 0 0 1).2.2.2.2.2 hlen⟩

/-- The JS string comparator is total. -/
theorem lexLeChars_total : ∀ a b : List Char, lexLeChars a b = true ∨ lexLeChars b a = true
  | [], _ => Or.inl rfl
  | _ :: _, [] => Or.inr rfl
  | a :: as, b :: bs => by
    simp only [lexLeChars]
    by_cases hab : a < b
    · left; simp [hab]
    · by_cases hba : b < a
      · right; simp [hba]
      · rcases lexLeChars_total as bs with h | h
        · left; simp [hab, hba, h]
        · right; simp [hba, hab, h]

/-- The JS string comparator is transitive. -/
theorem lexLeChars_trans : ∀ a b c : List Char,
    lexLeChars a b = true → lexLeChars b c = true → lexLeChars a c = true
  | [], _, _, _, _ => rfl
  | _ :: _, [], _, h1, _ => by simp [lexLeChars] at h1
  | _ :: _, _ :: _, [], _, h2 => by simp [lexLeChars] at h2
  | a :: as, b :: bs, c :: cs, h1, h2 => by
    simp only [lexLeChars] at h1 h2 ⊢
    by_cases hab : a < b
    · by_cases hbc : b < c
      · simp [lt_trans hab hbc]
      · by_cases hcb : c < b
        · simp [hbc, hcb] at h2
        · have hbceq : b = c := le_antisymm (not_lt.mp hcb) (not_lt.mp hbc)
          subst hbceq
          simp [hab]
    · by_cases hba : b < a
      · simp [hab, hba] at h1
      · have habeq : a = b := le_antisymm (not_lt.mp hba) (not_lt.mp hab)
        subst habeq
        rw [if_neg hab, if_neg hab] at h1
        by_cases hac : a < c
        · simp [hac]
        · by_cases hca : c < a
          · simp [hac, hca] at h2
          · rw [if_neg hac, if_neg hca] at h2 ⊢
            exact lexLeChars_trans as bs cs h1 h2

instance : IsTotal String strLe :=
  ⟨fun a b => lexLeChars_total a.toList b.toList⟩

instance : IsTrans String strLe :=
  ⟨fun a b c => lexLeChars_trans a.toList b.toList c.toList⟩

/-- Membership of the first-occurrence deduplication fold. -/
theorem dedupFirst_aux_mem (x : String) : ∀ (l acc : List String),
    (x ∈ l.foldl (fun acc s => if s ∈ acc then acc else acc ++ [s]) acc ↔ x ∈ acc ∨ x ∈ l)
  | [], acc => by simp
  | s :: l, acc => by
    simp only [List.foldl_cons]
    by_cases h : s ∈ acc
    · rw [if_pos h, dedupFirst_aux_mem x l acc]
      constructor
      · rintro (hx | hx)
        · exact Or.inl hx
        · exact Or.inr (List.mem_cons_of_mem s hx)
      · rintro (hx | hx)
        · exact Or.inl hx
        · rcases List.mem_cons.mp hx with rfl | hx
          · exact Or.inl h
          · exact Or.inr hx
    · rw [if_neg h, dedupFirst_aux_mem x l (acc ++ [s])]
      simp only [List.mem_append, List.mem_cons, List.mem_singleton]
      tauto

/-- The first-occurrence deduplication fold preserves nodup accumulators. -/
theorem dedupFirst_aux_nodup : ∀ (l acc : List String), acc.Nodup →
    (l.foldl (fun acc s => if s ∈ acc then acc else acc ++ [s]) acc).Nodup
  | [], _, h => by simpa using h
  | s :: l, acc, h => by
    simp only [List.foldl_cons]
    by_cases hs : s ∈ acc
    · rw [if_pos hs]
      exact dedupFirst_aux_nodup l acc h
    · rw [if_neg hs]
      refine dedupFirst_aux_nodup l (acc ++ [s]) ?_
      exact h.append (List.nodup_singleton s) (List.disjoint_singleton.mpr hs)

/-- Membership of `dedupFirst`. -/
theorem dedupFirst_mem (x : String) (l : List String) : x ∈ dedupFirst l ↔ x ∈ l := by
  rw [dedupFirst, dedupFirst_aux_mem]
  simp

/-- `dedupFirst` has no duplicates. -/
theorem dedupFirst_nodup (l : List String) : (dedupFirst l).Nodup :=
  dedupFirst_aux_nodup l [] List.nodup_nil

/-- Membership of `symbolNames`: exactly the non-reserved symbol names. -/
theorem symbolNames_mem (x : String) (n : MNode) :
    x ∈ symbolNames n ↔ x ∈ allSymbols n ∧ x ∉ RESERVED := by
  rw [symbolNames, dedupFirst_mem, List.mem_filter]
  simp

/-- Rewriting leaves no Greek mu behind. -/
theorem toAscii_no_mu : ∀ t : List Char, 'μ' ∉ toAscii t
  | [] => by simp [toAscii]
  | c :: t => by
    simp only [toAscii]
    by_cases h : c = 'μ'
    · rw [if_pos h]
      intro hmem
      rcases List.mem_append.mp hmem with hm | hm
      · simp at hm
      · exact toAscii_no_mu t hm
    · rw [if_neg h]
      intro hmem
      rcases List.mem_append.mp hmem with hm | hm
      · rcases List.mem_singleton.mp hm with rfl
        exact h rfl
      · exact toAscii_no_mu t hm

/-- Rewriting is the identity on texts without a Greek mu. -/
theorem toAscii_id : ∀ t : List Char, 'μ' ∉ t → toAscii t = t
  | [], _ => rfl
  | c :: t, h => by
    have hc : ¬ c = 'μ' := fun hc => h (hc ▸ List.mem_cons_self c t)
    simp only [toAscii, if_neg hc, List.singleton_append, List.cons.injEq, true_and]
    exact toAscii_id t fun hm => h (List.mem_cons_of_mem c hm)

/-- C7: the required-parameter list is computed from the two texts after the
Greek "μ" to "mu" rewrite, and equals the sorted set of all symbol names of
either parsed expression excluding exactly the reserved set {x, y, t, e, pi},
with no duplicates; the rewrite removes every "μ" and leaves mu-free text
untouched. -/
theorem c7_required_params (parse : List Char → MNode) (ex ey : List Char) (s : String)
    (t : List Char) :
    (requiredParamsOf parse ex ey).Sorted strLe ∧
    (requiredParamsOf parse ex ey).Nodup ∧
    (s ∈ requiredParamsOf parse ex ey ↔
      (s ∈ allSymbols (parse (toAscii ex)) ∨ s ∈ allSymbols (parse (toAscii ey))) ∧
        s ∉ RESERVED) ∧
    'μ' ∉ toAscii t ∧
    ('μ' ∉ t → toAscii t = t) := by
  refine ⟨?_, ?_, ?_, toAscii_no_mu t, toAscii_id t⟩
  · exact List.sorted_insertionSort strLe _
  · exact ((List.perm_insertionSort strLe _).nodup_iff).mpr
      (dedupFirst_nodup (symbolNames (parse (toAscii ex)) ++ symbolNames (parse (toAscii ey))))
  · rw [requiredParamsOf, List.mem_insertionSort, dedupFirst_mem, List.mem_append,
      symbolNames_mem, symbolNames_mem]
    tauto

/-- C7 witness: the rewrite maps "μx" to "mux", is idempotent on mu-free
text, and a symbol list is extracted sorted and deduplicated. -/
theorem c7_required_params_witness :
    toAscii "ab".toList = "ab".toList ∧
    requiredParamsOf (fun _ => MNode.node "add" [MNode.sym "mu", MNode.sym "x", MNode.sym "mu"])
      [] [] = ["mu"] := by
  constructor
  · exact (c7_required_params (fun _ => MNode.sym "k") [] [] "k" "ab".toList).2.2.2.2 (by decide)
  · have h := c7_required_params
      (fun _ => MNode.node "add" [MNode.sym "mu", MNode.sym "x", MNode.sym "mu"]) [] [] "mu" []
    decide

/-- The deduplication fold only appends a subsequence of its input. -/
theorem uniqueByApprox_aux_sublist : ∀ (l acc : List (ℕ × (ℚ × ℚ))),
    ∃ t, l.foldl
        (fun acc e => if acc.any (fun u => approxEqualQ u.2 e.2) then acc else acc ++ [e]) acc =
      acc ++ t ∧ t.Sublist l
  | [], acc => ⟨[], by simp, List.Sublist.refl []⟩
  | e :: l, acc => by
    simp only [List.foldl_cons]
    by_cases h : acc.any (fun u => approxEqualQ u.2 e.2) = true
    · rw [if_pos h]
      obtain ⟨t, ht, hs⟩ := uniqueByApprox_aux_sublist l acc
      exact ⟨t, ht, hs.cons e⟩
    · rw [if_neg h]
      obtain ⟨t, ht, hs⟩ := uniqueByApprox_aux_sublist l (acc ++ [e])
      exact ⟨e :: t, by rw [ht, List.append_assoc, List.singleton_append], hs.cons₂ e⟩

/-- The deduplicated crossing-point list is a subsequence of the raw one. -/
theorem uniqueByApprox_sublist (l : List (ℕ × (ℚ × ℚ))) : (uniqueByApprox l).Sublist l := by
  obtain ⟨t, ht, hs⟩ := uniqueByApprox_aux_sublist l []
  rw [uniqueByApprox, ht, List.nil_append]
  exact hs

/-- C6: when a cell's four edges yield exactly 4 distinct crossing points,
all four edges cross, the points are the interpolated edge points in edge
order 0,1,2,3, and the emitted segments pair (point0, point1) and
(point2, point3) when the center value is positive, else (point0, point3)
and (point1, point2). -/
theorem c6_ambiguous_cell (x0 x1 y0 y1 c00 c10 c11 c01 : ℚ) (centerVal : Option ℚ)
    (p0 p1 p2 p3 : ℕ × (ℚ × ℚ))
    (h4 : uniqueByApprox (cellPts x0 x1 y0 y1 c00 c10 c11 c01) = [p0, p1, p2, p3]) :
    (crosses (some c00) (some c10) = true ∧ crosses (some c10) (some c11) = true ∧
      crosses (some c01) (some c11) = true ∧ crosses (some c00) (some c01) = true) ∧
    p0 = (0, edgePointQ x0 x1 y0 y1 c00 c10 c11 c01 0) ∧
    p1 = (1, edgePointQ x0 x1 y0 y1 c00 c10 c11 c01 1) ∧
    p2 = (2, edgePointQ x0 x1 y0 y1 c00 c10 c11 c01 2) ∧
    p3 = (3, edgePointQ x0 x1 y0 y1 c00 c10 c11 c01 3) ∧
    cellSegments x0 x1 y0 y1 c00 c10 c11 c01 centerVal =
      (if jsGtZero centerVal = true then [(p0.2, p1.2), (p2.2, p3.2)]
       else [(p0.2, p3.2), (p1.2, p2.2)]) := by
  have hsub : List.Sublist [p0, p1, p2, p3] (cellPts x0 x1 y0 y1 c00 c10 c11 c01) := by
    rw [← h4]
    exact uniqueByApprox_sublist _
  have hlen4 : 4 ≤ (cellPts x0 x1 y0 y1 c00 c10 c11 c01).length := by
    simpa using hsub.length_le
  have hcross : crosses (some c00) (some c10) = true ∧ crosses (some c10) (some c11) = true ∧
      crosses (some c01) (some c11) = true ∧ crosses (some c00) (some c01) = true := by
    rw [cellPts] at hlen4
    split_ifs at hlen4 with hc0 hc1 hc2 hc3 <;> simp_all
  have heq : cellPts x0 x1 y0 y1 c00 c10 c11 c01 =
      [(0, edgePointQ x0 x1 y0 y1 c00 c10 c11 c01 0),
       (1, edgePointQ x0 x1 y0 y1 c00 c10 c11 c01 1),
       (2, edgePointQ x0 x1 y0 y1 c00 c10 c11 c01 2),
       (3, edgePointQ x0 x1 y0 y1 c00 c10 c11 c01 3)] := by
    rw [cellPts, if_pos hcross.1, if_pos hcross.2.1, if_pos hcross.2.2.1, if_pos hcross.2.2.2]
    rfl
  have hlist : [p0, p1, p2, p3] = cellPts x0 x1 y0 y1 c00 c10 c11 c01 :=
    hsub.eq_of_length (by rw [heq]; rfl)
  rw [heq] at hlist
  have h0 : p0 = (0, edgePointQ x0 x1 y0 y1 c00 c10 c11 c01 0) := by
    injection hlist
  have hlist1 := List.tail_eq_of_cons_eq hlist
  have h1 : p1 = (1, edgePointQ x0 x1 y0 y1 c00 c10 c11 c01 1) := by
    injection hlist1
  have hlist2 := List.tail_eq_of_cons_eq hlist1
  have h2 : p2 = (2, edgePointQ x0 x1 y0 y1 c00 c10 c11 c01 2) := by
    injection hlist2
  have hlist3 := List.tail_eq_of_cons_eq hlist2
  have h3 : p3 = (3, edgePointQ x0 x1 y0 y1 c00 c10 c11 c01 3) := by
    injection hlist3
  refine ⟨hcross, h0, h1, h2, h3, ?_⟩
  have hsorted : List.Sorted (fun a b : ℕ × (ℚ × ℚ) => a.1 ≤ b.1) [p0, p1, p2, p3] := by
    rw [h0, h1, h2, h3]
    simp [List.sorted_cons]
  simp only [cellSegments, h4]
  rw [List.Sorted.insertionSort_eq hsorted]
  simp only [List.length_cons, List.length_nil]
  norm_num

/-- C6 witness: the saddle-like corner pattern (−1, 1, −1, 1) crosses on all
four edges at the edge midpoints, and a positive center value pairs the
points as (0,1) and (2,3). -/
theorem c6_ambiguous_cell_witness :
    cellSegments 0 1 0 1 (-1) 1 (-1) 1 (some 1) =
      [(((1 : ℚ) / 2, (0 : ℚ)), ((1 : ℚ), (1 : ℚ) / 2)),
       (((1 : ℚ) / 2, (1 : ℚ)), ((0 : ℚ), (1 : ℚ) / 2))] := by
  have hpts : cellPts 0 1 0 1 (-1) 1 (-1) 1 =
      [(0, ((1 : ℚ) / 2, (0 : ℚ))), (1, ((1 : ℚ), (1 : ℚ) / 2)),
       (2, ((1 : ℚ) / 2, (1 : ℚ))), (3, ((0 : ℚ), (1 : ℚ) / 2))] := by
    norm_num [cellPts, crosses, valEps, edgePointQ, edgeT, clampQ, lerpQ]
  have hdedup : uniqueByApprox (cellPts 0 1 0 1 (-1) 1 (-1) 1) =
      [(0, ((1 : ℚ) / 2, (0 : ℚ))), (1, ((1 : ℚ), (1 : ℚ) / 2)),
       (2, ((1 : ℚ) / 2, (1 : ℚ))), (3, ((0 : ℚ), (1 : ℚ) / 2))] := by
    rw [hpts]
    norm_num [uniqueByApprox, approxEqualQ]
  have h := c6_ambiguous_cell 0 1 0 1 (-1) 1 (-1) 1 (some 1) _ _ _ _ hdedup
  rw [h.2.2.2.2.2]
  norm_num [jsGtZero]

/-- The accumulation fold keeps accepted points pairwise at least 1e-4
apart. -/
theorem refinedPoints_aux_pairwise (F : FG) (J : Jac) :
    ∀ (cands acc : List (ℚ × ℚ)),
      acc.Pairwise (fun p q => (p.1 - q.1) ^ 2 + (p.2 - q.2) ^ 2 ≥ ((1 : ℚ) / 10 ^ 4) ^ 2) →
      (cands.foldl
        (fun acc pt =>
          match refinePoint F J pt.1 pt.2 with
          | none => acc
          | some r =>
            if acc.any (fun q => (q.1 - r.1) ^ 2 + (q.2 - r.2) ^ 2 < (1 / 10 ^ 4 : ℚ) ^ 2)
            then acc else acc ++ [r]) acc).Pairwise
        (fun p q => (p.1 - q.1) ^ 2 + (p.2 - q.2) ^ 2 ≥ ((1 : ℚ) / 10 ^ 4) ^ 2)
  | [], acc, h => by simpa using h
  | pt :: cands, acc, h => by
    simp only [List.foldl_cons]
    cases hr : refinePoint F J pt.1 pt.2 with
    | none => exact refinedPoints_aux_pairwise F J cands acc h
    | some r =>
      dsimp only
      by_cases hany : acc.any
          (fun q => (q.1 - r.1) ^ 2 + (q.2 - r.2) ^ 2 < (1 / 10 ^ 4 : ℚ) ^ 2) = true
      · rw [if_pos hany]
        exact refinedPoints_aux_pairwise F J cands acc h
      · rw [if_neg hany]
        refine refinedPoints_aux_pairwise F J cands (acc ++ [r]) ?_
        rw [List.pairwise_append]
        refine ⟨h, List.pairwise_singleton _ r, ?_⟩
        intro a ha b hb
        rcases List.mem_singleton.mp hb with rfl
        have hfar : ¬ ((a.1 - b.1) ^ 2 + (a.2 - b.2) ^ 2 < (1 / 10 ^ 4 : ℚ) ^ 2) := by
          intro hc
          exact hany (List.any_eq_true.mpr ⟨a, ha, by simpa using hc⟩)
        exact not_lt.mp hfar

/-- Every point produced by the accumulation fold is either inherited from
the accumulator or the accepted refinement of some candidate. -/
theorem refinedPoints_aux_mem (F : FG) (J : Jac) :
    ∀ (cands acc : List (ℚ × ℚ)) (r : ℚ × ℚ),
      r ∈ cands.foldl
        (fun acc pt =>
          match refinePoint F J pt.1 pt.2 with
          | none => acc
          | some r =>
            if acc.any (fun q => (q.1 - r.1) ^ 2 + (q.2 - r.2) ^ 2 < (1 / 10 ^ 4 : ℚ) ^ 2)
            then acc else acc ++ [r]) acc →
      r ∈ acc ∨ ∃ c ∈ cands, refinePoint F J c.1 c.2 = some r
  | [], acc, r, hmem => Or.inl (by simpa using hmem)
  | pt :: cands, acc, r, hmem => by
    simp only [List.foldl_cons] at hmem
    cases hr : refinePoint F J pt.1 pt.2 with
    | none =>
      rw [hr] at hmem
      rcases refinedPoints_aux_mem F J cands acc r hmem with h | ⟨c, hc, hrc⟩
      · exact Or.inl h
      · exact Or.inr ⟨c, List.mem_cons_of_mem pt hc, hrc⟩
    | some r' =>
      rw [hr] at hmem
      dsimp only at hmem
      by_cases hany : acc.any
          (fun q => (q.1 - r'.1) ^ 2 + (q.2 - r'.2) ^ 2 < (1 / 10 ^ 4 : ℚ) ^ 2) = true
      · rw [if_pos hany] at hmem
        rcases refinedPoints_aux_mem F J cands acc r hmem with h | ⟨c, hc, hrc⟩
        · exact Or.inl h
        · exact Or.inr ⟨c, List.mem_cons_of_mem pt hc, hrc⟩
      · rw [if_neg hany] at hmem
        rcases refinedPoints_aux_mem F J cands (acc ++ [r']) r hmem with h | ⟨c, hc, hrc⟩
        · rcases List.mem_append.mp h with h | h
          · exact Or.inl h
          · rcases List.mem_singleton.mp h with rfl
            exact Or.inr ⟨pt, List.mem_cons_self pt cands, hr⟩
        · exact Or.inr ⟨c, List.mem_cons_of_mem pt hc, hrc⟩

/-- C1 counterexample: for the constant-zero system (f = g = 0, hence a
zero Jacobian everywhere), the code's `refinePoint` rejects the candidate
(0,0) outright at the singular-Jacobian check, while the claim's reading
(keep the partial result and run the acceptance test, accepting residual
0 < 1e-5) accepts it. -/
theorem c1_newton_refinement_counterexample :
    refinePoint (fun _ _ => some (0, 0)) (fun _ _ => ((0, 0), (0, 0))) 0 0 = none ∧
    claimRefinePoint (fun _ _ => some (0, 0)) (fun _ _ => ((0, 0), (0, 0))) 0 0 =
      some (0, 0) := by
  constructor
  · have hloop : refineLoop (fun _ _ => some ((0 : ℚ), (0 : ℚ)))
        (fun _ _ => (((0 : ℚ), (0 : ℚ)), ((0 : ℚ), (0 : ℚ)))) 25 0 0 = none := by
      rw [show (25 : ℕ) = 24 + 1 from rfl]
      simp only [refineLoop]
      rw [if_pos]
      norm_num
    simp only [refinePoint, hloop]
  · have hloop : claimRefineLoop (fun _ _ => some ((0 : ℚ), (0 : ℚ)))
        (fun _ _ => (((0 : ℚ), (0 : ℚ)), ((0 : ℚ), (0 : ℚ)))) 25 0 0 = some (0, 0) := by
      rw [show (25 : ℕ) = 24 + 1 from rfl]
      simp only [claimRefineLoop]
      rw [if_pos]
      norm_num
    simp only [claimRefinePoint, hloop]
    rw [if_pos]
    norm_num

/-- C1 (amended): the Newton refinement runs at most 25 iterations with the
explicit 2×2-inverse step and stops early when the step norm drops below
1e-9; a singular Jacobian (|det J| < 1e-12) REJECTS the candidate outright
(no partial result is kept); a refined point is accepted iff the final
residual satisfies ‖F‖ ≤ 1e-5 (the code rejects only when strictly
greater); and accepted points are deduplicated pairwise at the 1e-4
distance tolerance, each being the accepted refinement of some candidate. -/
theorem c1_newton_refinement_amended (F : FG) (J : Jac) (x0 y0 : ℚ)
    (cands : List (ℚ × ℚ)) :
    (∀ p, refinePoint F J x0 y0 = some p →
      ∃ u v, F p.1 p.2 = some (u, v) ∧ u ^ 2 + v ^ 2 ≤ ((1 : ℚ) / 10 ^ 5) ^ 2) ∧
    (∀ x y u v, refineLoop F J 25 x0 y0 = some (x, y) → F x y = some (u, v) →
      u ^ 2 + v ^ 2 ≤ ((1 : ℚ) / 10 ^ 5) ^ 2 → refinePoint F J x0 y0 = some (x, y)) ∧
    (∀ u v, F x0 y0 = some (u, v) →
      |(J x0 y0).1.1 * (J x0 y0).2.2 - (J x0 y0).1.2 * (J x0 y0).2.1| < 1 / 10 ^ 12 →
      refinePoint F J x0 y0 = none) ∧
    (∀ p ∈ refinedPointsList F J cands, ∀ q ∈ refinedPointsList F J cands, p ≠ q →
      (p.1 - q.1) ^ 2 + (p.2 - q.2) ^ 2 ≥ ((1 : ℚ) / 10 ^ 4) ^ 2) ∧
    (∀ p ∈ refinedPointsList F J cands, ∃ c ∈ cands, refinePoint F J c.1 c.2 = some p) := by
  refine ⟨?_, ?_, ?_, ?_, ?_⟩
  · intro p hp
    rw [refinePoint] at hp
    cases hloop : refineLoop F J 25 x0 y0 with
    | none => rw [hloop] at hp; simp at hp
    | some w =>
      obtain ⟨x, y⟩ := w
      rw [hloop] at hp
      dsimp only at hp
      cases hF : F x y with
      | none => rw [hF] at hp; simp at hp
      | some uv =>
        obtain ⟨u, v⟩ := uv
        rw [hF] at hp
        dsimp only at hp
        by_cases hres : u ^ 2 + v ^ 2 > ((1 : ℚ) / 10 ^ 5) ^ 2
        · rw [if_pos hres] at hp
          simp at hp
        · rw [if_neg hres] at hp
          rcases Option.some.injEq _ _ ▸ hp with rfl
          exact ⟨u, v, hF, not_lt.mp hres⟩
  · intro x y u v hloop hF hres
    rw [refinePoint, hloop]
    dsimp only
    rw [hF]
    dsimp only
    rw [if_neg (not_lt.mpr hres)]
  · intro u v hF hdet
    have hloop : refineLoop F J 25 x0 y0 = none := by
      rw [show (25 : ℕ) = 24 + 1 from rfl]
      simp only [refineLoop, hF]
      rw [if_pos hdet]
    rw [refinePoint, hloop]
  · intro p hp q hq hne
    have hpw := refinedPoints_aux_pairwise F J cands [] (List.Pairwise.nil)
    have hsymm : Symmetric
        (fun p q : ℚ × ℚ => (p.1 - q.1) ^ 2 + (p.2 - q.2) ^ 2 ≥ ((1 : ℚ) / 10 ^ 4) ^ 2) := by
      intro a b hab
      have h1 : (b.1 - a.1) ^ 2 = (a.1 - b.1) ^ 2 := by ring
      have h2 : (b.2 - a.2) ^ 2 = (a.2 - b.2) ^ 2 := by ring
      rw [h1, h2]
      exact hab
    exact hpw.forall hsymm hp hq hne
  · intro p hp
    rcases refinedPoints_aux_mem F J cands [] p hp with h | h
    · simp at h
    · exact h

/-- C1 witness for the amended theorem: on the constant-zero system the
singular-Jacobian check fires and the candidate is rejected. -/
theorem c1_newton_refinement_amended_witness :
    refinePoint (fun _ _ => some (0, 0)) (fun _ _ => ((0, 0), (0, 0))) 1 1 = none :=
  (c1_newton_refinement_amended (fun _ _ => some (0, 0)) (fun _ _ => ((0, 0), (0, 0)))
    1 1 []).2.2.1 0 0 rfl (by norm_num)

end PhasePlane
